import Mathlib

/-!
Verification of the lookup-argument core of the Jolt repository.

The development embeds the instruction-to-subtable decomposition
(`jolt-core/src/jolt/instruction/mod.rs` and the worked LT/EQ example in
`src/jolt/lt.rs`) and the spec-described evaluation-proof pipeline, and
proves or refutes the frozen claims about them.

Rust field elements (`F: PrimeField`) are embedded as elements of an
arbitrary commutative ring; the definitions translated from the source are
stated over the weakest operation classes they need so that they can also
be instantiated at a polynomial carrier in the evaluation-proof model.
Machine integers (`u64`, `usize`) are embedded as natural numbers with
explicit bounds where overflow or width matters.  A Rust `assert!` or a
slice-indexing panic is embedded as an `Except` error, following the
spec's error-handling design (InvalidParameter / InvalidState).
-/

set_option maxHeartbeats 1000000
set_option linter.unusedVariables false

namespace JoltModel

/-- Error kinds from the spec's error-handling design: `InvalidParameter`
for a caller-violated precondition (e.g. odd `log_M`), `InvalidState` for a
broken internal invariant (e.g. a value-slice length mismatch). -/
inductive ErrKind where
  | InvalidParameter
  | InvalidState
deriving DecidableEq

/-- Modelled from the spec: `utils::split_bits` is used by
`LTSubtable::materialize` but is not under `src/`.  Per §3 of the spec a
table row index is interpreted as two equal-width sub-operands via a
deterministic bit-split; per claim C8's wording the left sub-operand is
the high bits and the right sub-operand the low `num_bits` bits. -/
def split_bits (item num_bits : ℕ) : ℕ × ℕ :=
  (item / 2 ^ num_bits, item % 2 ^ num_bits)

namespace LTSubtable

/-- Embedding of `LTSubtable::dimensions` (src/src/jolt/lt.rs). -/
def dimensions : ℕ := 8

/-- Embedding of `LTSubtable::memory_size` (src/src/jolt/lt.rs). -/
def memory_size : ℕ := 2 ^ 16

/-- Embedding of `LTSubtable::materialize` (src/src/jolt/lt.rs): the table
is materialized in counting order; row `idx` holds `F::from(lhs < rhs)`
where `(lhs, rhs) = split_bits idx (log2 M / 2)`. -/
def materialize (R : Type) [Zero R] [One R] : List R :=
  let bits_per_operand := Nat.log2 memory_size / 2
  (List.range memory_size).map (fun idx =>
    let p := split_bits idx bits_per_operand
    if p.1 < p.2 then (1 : R) else 0)

/-- The loop body of `LTSubtable::evaluate_mle` (src/src/jolt/lt.rs):
iterates over paired coordinates of the two point halves, accumulating
`result += (1 - x) * y * eq_term` and
`eq_term *= 1 - x - y + 2 x y` (the literal `2` is written `1 + 1` so the
definition needs only the ring operations). -/
def ltMleGo {R : Type} [Zero R] [One R] [Add R] [Mul R] [Sub R] :
    List R → List R → R → R → R
  | x :: xs, y :: ys, res, eqt =>
      ltMleGo xs ys (res + (1 - x) * y * eqt)
        (eqt * (1 - x - y + (1 + 1) * x * y))
  | _, _, res, _ => res

/-- Embedding of `LTSubtable::evaluate_mle` (src/src/jolt/lt.rs): the point
is split into two equal halves `x` and `y` and the bit-serial less-than
form is accumulated most-significant coordinate first. -/
def evaluate_mle {R : Type} [Zero R] [One R] [Add R] [Mul R] [Sub R]
    (point : List R) : R :=
  let b := point.length / 2
  ltMleGo (point.take b) (point.drop b) 0 1

end LTSubtable

namespace EQSubtable

/-- Embedding of `EQSubtable::dimensions` (src/src/jolt/lt.rs). -/
def dimensions : ℕ := 8

/-- Embedding of `EQSubtable::memory_size` (src/src/jolt/lt.rs). -/
def memory_size : ℕ := 2 ^ 16

/-- Embedding of `EQSubtable::materialize` (src/src/jolt/lt.rs): row `idx`
holds `F::from(lhs == rhs)` for `(lhs, rhs) = split_bits idx (log2 M / 2)`. -/
def materialize (R : Type) [Zero R] [One R] : List R :=
  let bits_per_operand := Nat.log2 memory_size / 2
  (List.range memory_size).map (fun idx =>
    let p := split_bits idx bits_per_operand
    if p.1 = p.2 then (1 : R) else 0)

/-- The loop body of `EQSubtable::evaluate_mle` (src/src/jolt/lt.rs): the
product over coordinate pairs of the equality kernel `1 - x - y + 2 x y`. -/
def eqMleGo {R : Type} [Zero R] [One R] [Add R] [Mul R] [Sub R] :
    List R → List R → R → R
  | x :: xs, y :: ys, eqt =>
      eqMleGo xs ys (eqt * (1 - x - y + (1 + 1) * x * y))
  | _, _, eqt => eqt

/-- Embedding of `EQSubtable::evaluate_mle` (src/src/jolt/lt.rs). -/
def evaluate_mle {R : Type} [Zero R] [One R] [Add R] [Mul R] [Sub R]
    (point : List R) : R :=
  let b := point.length / 2
  eqMleGo (point.take b) (point.drop b) 1

end EQSubtable

/-- A Boolean coordinate embedded as a ring element, `F::from(b as u64)`. -/
def boolVal (R : Type) [Zero R] [One R] (b : Bool) : R := if b then 1 else 0

/-- A Boolean-valued point embedded coordinatewise into the ring. -/
def embedPoint (R : Type) [Zero R] [One R] (p : List Bool) : List R :=
  p.map (boolVal R)

/-- The unsigned integer whose binary digits are the given bit list, most
significant bit first — the bit order in which `evaluate_mle` consumes a
half-point (the spec iterates from the most significant bit downward). -/
def bitsToNat : List Bool → ℕ
  | [] => 0
  | b :: bs => (if b then 1 else 0) * 2 ^ bs.length + bitsToNat bs

/-- Following claim C1's words: the first half of the Boolean point gives
the bits of the left sub-operand, the second half the bits of the right
sub-operand, combined into a table row index exactly the way
`materialize`'s `split_bits` splits one (left sub-operand in the high
bits). -/
def bits_to_index (p : List Bool) : ℕ :=
  let b := p.length / 2
  bitsToNat (p.take b) * 2 ^ b + bitsToNat (p.drop b)

namespace LTInstruction

/-- Modelled from the spec: `num_memories` comes from the
`InstructionStrategy` trait, which is not under `src/`; per §4.2 the value
vector length is the sum of the chunk counts over the instruction's
subtables, here 2 subtables × dimension 8. -/
def num_memories : ℕ := 16

/-- The loop body of `LTInstruction::combine_lookups` (src/src/jolt/lt.rs):
for `i in 0..C` it accumulates `sum += vals[2*i] * eq_prod` and
`eq_prod *= vals[2*i + 1]`, i.e. it consumes `vals` two entries at a
time. -/
def combineGo {R : Type} [Zero R] [One R] [Add R] [Mul R] :
    List R → R → R → R
  | v :: w :: rest, s, eqp => combineGo rest (s + v * eqp) (eqp * w)
  | _, s, _ => s

/-- Embedding of `LTInstruction::combine_lookups` (src/src/jolt/lt.rs).
The source's `assert_eq!(vals.len(), self.num_memories())` is embedded as
an `InvalidState` error per the spec's error-handling design. -/
def combine_lookups {R : Type} [Zero R] [One R] [Add R] [Mul R]
    (vals : List R) : Except ErrKind R :=
  if vals.length = num_memories then .ok (combineGo vals 0 1)
  else .error .InvalidState

/-- Modelled from the spec: the LT instruction's `lookup_entry` is not
under `src/`; per §4.2 it is the ground truth computed directly from the
operands with the instruction's native semantics, i.e. `(x < y) as u64`. -/
def lookup_entry (x y : ℕ) : ℕ := if x < y then 1 else 0

end LTInstruction

/-- Modelled from the spec: `utils::instruction_utils::chunk_operand` is
used by `JoltInstruction::operand_chunks` but is not under `src/`.  Per
§4.2 it splits one operand word into `C` chunks of `chunk_len` bits each;
the most significant chunk comes first, matching the spec's
most-significant-first iteration order for the comparison tables. -/
def chunk_operand (x C chunk_len : ℕ) : List ℕ :=
  (List.range C).map (fun i => x / 2 ^ ((C - 1 - i) * chunk_len) % 2 ^ chunk_len)

namespace JoltInstruction

/-- Embedding of `JoltInstruction::operand_chunks`
(src/jolt-core/src/jolt/instruction/mod.rs): asserts `log_M` even —
embedded as an `InvalidParameter` error per §7 — and splits each of the two
operand words independently into `C` chunks of `log_M / 2` bits. -/
def operand_chunks (x y C log_M : ℕ) : Except ErrKind (List ℕ × List ℕ) :=
  if log_M % 2 = 0 then
    .ok (chunk_operand x C (log_M / 2), chunk_operand y C (log_M / 2))
  else .error .InvalidParameter

/-- Modelled from the spec: the concrete `to_indices` implementations are
not under `src/` (only the trait declaration is).  Per §4.2 the operand
pair is split into `C` table-row indices; for the chunk-per-operand table
kinds each row index packs the left chunk into the high `log_M / 2` bits
and the right chunk into the low bits, the same packing `split_bits`
undoes.  An odd `log_M` fails with `InvalidParameter`. -/
def to_indices (x y C log_M : ℕ) : Except ErrKind (List ℕ) :=
  match operand_chunks x y C log_M with
  | .ok (cx, cy) =>
      .ok (List.zipWith (fun a b => a * 2 ^ (log_M / 2) + b) cx cy)
  | .error e => .error e

end JoltInstruction

/-- Embedding of `SubtableIndices`
(src/jolt-core/src/jolt/instruction/mod.rs): a fixed-capacity bit-set (the
external `FixedBitSet` is modelled as its underlying bit vector). -/
structure SubtableIndices where
  bits : List Bool

namespace SubtableIndices

/-- Embedding of `SubtableIndices::contains`: membership test of one chunk
position. -/
def contains (s : SubtableIndices) (i : ℕ) : Bool := s.bits.getD i false

/-- Embedding of `SubtableIndices::len`: `FixedBitSet::count_ones(..)`,
the number of set bits. -/
def len (s : SubtableIndices) : ℕ := s.bits.count true

/-- Embedding of `SubtableIndices::iter`: `FixedBitSet::ones()` yields the
set bit positions in ascending order. -/
def iter (s : SubtableIndices) : List ℕ :=
  (List.range s.bits.length).filter (fun i => s.bits.getD i false)

end SubtableIndices

/-- The recursion of `JoltInstruction::slice_values`
(src/jolt-core/src/jolt/instruction/mod.rs): walks the subtable groups,
taking a slice of `indices.len()` values at the running offset.  A slice
reaching past the end of `vals` (a Rust slicing panic) and the final
`assert_eq!(offset, vals.len())` are both embedded as `InvalidState`
errors per §7. -/
def sliceGo {R : Type} (vals : List R) :
    List SubtableIndices → ℕ → Except ErrKind (List (List R))
  | [], offset => if offset = vals.length then .ok [] else .error .InvalidState
  | g :: gs, offset =>
      if offset + g.len ≤ vals.length then
        match sliceGo vals gs (offset + g.len) with
        | .ok rest => .ok (((vals.drop offset).take g.len) :: rest)
        | .error e => .error e
      else .error .InvalidState

/-- Embedding of `JoltInstruction::slice_values`
(src/jolt-core/src/jolt/instruction/mod.rs), parametrized by the list of
`SubtableIndices` the instruction's `subtables` method returned. -/
def slice_values {R : Type} (vals : List R) (groups : List SubtableIndices) :
    Except ErrKind (List (List R)) :=
  sliceGo vals groups 0

/-- Lexicographic strict comparison of two equal-length digit lists, most
significant digit first.  This is the order in which the LT instruction's
combine polynomial scans its chunks. -/
def lexLt : List ℕ → List ℕ → Bool
  | a :: as, b :: bs => decide (a < b) || (decide (a = b) && lexLt as bs)
  | _, _ => false

/-- The materialized LT table entry at one table row index. -/
def ltEntry (R : Type) [Zero R] [One R] (idx : ℕ) : R :=
  (LTSubtable.materialize R).getD idx 0

/-- The materialized EQ table entry at one table row index. -/
def eqEntry (R : Type) [Zero R] [One R] (idx : ℕ) : R :=
  (EQSubtable.materialize R).getD idx 0

/-- The value vector ordered the way claim C2 states it: grouped by
subtable in the order the subtables method returns the groups, i.e. all
LT entries first, then all EQ entries. -/
def groupedVals (R : Type) [Zero R] [One R] (idxs : List ℕ) : List R :=
  idxs.map (ltEntry R) ++ idxs.map (eqEntry R)

/-- The value vector ordered dimension-major — `vals[2*i]` the LT entry
and `vals[2*i+1]` the EQ entry of chunk `i` — which is the layout the
`combine_lookups` loop in src/src/jolt/lt.rs actually reads. -/
def interleavedVals (R : Type) [Zero R] [One R] (idxs : List ℕ) : List R :=
  (idxs.map (fun idx => [ltEntry R idx, eqEntry R idx])).flatten

namespace LTVM

/-- Embedding of `LTVM::primary_poly_degree` (src/src/jolt/lt.rs): the
declared degree of the worked example's combine polynomial; the source
comments `LT[C-1] * EQ[0] * ... * EQ[C-2] + 1` and returns 4. -/
def primary_poly_degree : ℕ := 4

end LTVM

/-- The fifth finite difference of an integer-valued function, written
out with binomial coefficients; it annihilates every polynomial function
of degree at most 4. -/
def dd5val (f : ℤ → ℤ) (t : ℤ) : ℤ :=
  f (t + 5) - 5 * f (t + 4) + 10 * f (t + 3) - 10 * f (t + 2) + 5 * f (t + 1)
    - f t

/-- The combine loop of the LT instruction run on the 16 coordinate
polynomials: the multivariate polynomial that `combine_lookups` computes
in its inputs. -/
noncomputable def ltCombinePoly : MvPolynomial (Fin 16) ℤ :=
  LTInstruction.combineGo ((List.finRange 16).map MvPolynomial.X) 0 1

/-- A univariate polynomial as a dense coefficient list (index =
degree): the wire format of one sumcheck round message, a list of field
elements that can be appended to the transcript. -/
abbrev Poly (R : Type) : Type := List R

/-- Coefficientwise addition of dense polynomials. -/
def padd {R : Type} [Add R] : List R → List R → List R
  | [], q => q
  | p, [] => p
  | a :: p, b :: q => (a + b) :: padd p q

/-- Coefficientwise negation. -/
def pneg {R : Type} [Neg R] (p : List R) : List R := p.map (fun a => -a)

/-- Convolution product of dense polynomials. -/
def pmul {R : Type} [Zero R] [Add R] [Mul R] : List R → List R → List R
  | [], _ => []
  | a :: p, q => padd (q.map (fun b => a * b)) ((0 : R) :: pmul p q)

instance {R : Type} [Add R] : Add (Poly R) := ⟨padd⟩

instance {R : Type} [Zero R] [Add R] [Mul R] : Mul (Poly R) := ⟨pmul⟩

instance {R : Type} : Zero (Poly R) := ⟨([] : List R)⟩

instance {R : Type} [One R] : One (Poly R) := ⟨([1] : List R)⟩

instance {R : Type} [Neg R] : Neg (Poly R) := ⟨pneg⟩

instance {R : Type} [Add R] [Neg R] : Sub (Poly R) :=
  ⟨fun p q => padd p (pneg q)⟩

/-- Horner evaluation of a dense polynomial. -/
def peval {R : Type} [Zero R] [Add R] [Mul R] (t : R) : List R → R
  | [] => 0
  | a :: p => a + t * peval t p

/-- A constant as a dense polynomial. -/
def pC {R : Type} (a : R) : Poly R := [a]

/-- The indeterminate as a dense polynomial. -/
def pX {R : Type} [Zero R] [One R] : Poly R := [0, 1]

/-- Modelled from the spec: the multilinear equality kernel `eq` between
an evaluation point and a row index (§4.4 step 2); it is the same
coordinatewise product `1 - x - y + 2 x y` the EQ subtable's MLE uses. -/
def eqList {R : Type} [Zero R] [One R] [Add R] [Mul R] [Sub R]
    (a b : List R) : R :=
  EQSubtable.eqMleGo a b 1

/-- Modelled from the spec: the multilinear extension of a value column
(§3), the unique multilinear polynomial agreeing with the column on all
Boolean inputs, evaluated by successive halving (first coordinate selects
the half). -/
def mleEval {R : Type} [Zero R] [One R] [Add R] [Mul R] [Sub R] :
    List R → List R → R
  | vals, [] => vals.getD 0 0
  | vals, x :: xs =>
      (1 - x) * mleEval (vals.take (2 ^ xs.length)) xs
        + x * mleEval (vals.drop (2 ^ xs.length)) xs

/-- Modelled from the spec: the polynomial the evaluation-proof sumcheck
runs over (§4.4 step 2): `eq(point, row) · g(E_columns[row])` with `g`
the LT instruction's combine polynomial over the 16 E columns. -/
def lassoF {R : Type} [Zero R] [One R] [Add R] [Mul R] [Sub R]
    (rr : List R) (E : List (List R)) (x : List R) : R :=
  eqList rr x * LTInstruction.combineGo (E.map (fun col => mleEval col x)) 0 1

/-- The Boolean hypercube of a given dimension, with 0/1 coordinates in
the ring, first coordinate outermost. -/
def hypercube (R : Type) [Zero R] [One R] : ℕ → List (List R)
  | 0 => [[]]
  | n + 1 =>
      (hypercube R n).map (fun v => (0 : R) :: v) ++
        (hypercube R n).map (fun v => (1 : R) :: v)

/-- Sum of a function over the Boolean hypercube. -/
def hypersum {R : Type} [Zero R] [One R] [Add R] (n : ℕ)
    (f : List R → R) : R :=
  ((hypercube R n).map f).sum

/-- Modelled from the spec: the commitment generators are deterministic
public parameters sized by (C, S, table count, log M) (§2); the
commitment primitive itself is an external black box, so only the sizes
are carried. -/
structure SparsePolyCommitmentGens where
  dims : ℕ
  sparsity : ℕ
  numMemories : ℕ
  logM : ℕ

/-- Modelled from the spec: the densified representation owns C columns
of length S_padded (§4.3); for the worked example C = 8. -/
structure DensifiedRepresentation where
  dim : List (List ℕ)

/-- Modelled from the spec: `from_lookup_indices` pads the batch to the
next power-of-two row count by repeating index-0 rows, then lays the
index vectors out as C = 8 dense columns (§4.3). -/
def from_lookup_indices (nz : List (List ℕ)) (log_m : ℕ) :
    DensifiedRepresentation :=
  let spad := 2 ^ Nat.clog 2 nz.length
  let padded := nz ++ List.replicate (spad - nz.length) (List.replicate 8 0)
  ⟨(List.range 8).map (fun c => padded.map (fun row => row.getD c 0))⟩

/-- Modelled from the spec: the commitment is an opaque binding digest
over the densified columns (§3); the external commitment primitive is
instantiated as the trivial perfectly binding one, which is all the
round-trip law needs. -/
structure Commitment where
  cols : List (List ℕ)

/-- Modelled from the spec: committing binds all C columns (§4.3),
deterministically in the generators and columns. -/
def DensifiedRepresentation.commit (d : DensifiedRepresentation)
    (gens : SparsePolyCommitmentGens) : Commitment :=
  ⟨d.dim⟩

/-- Modelled from the spec: the 16 E columns (§4.4 step 1): memory i
reads dimension column i / 2 through the LT table when i is even and the
EQ table when i is odd — the dimension-major memory layout the combine
loop consumes. -/
def EcolsOf (R : Type) [Zero R] [One R] (cols : List (List ℕ)) :
    List (List R) :=
  (List.range 16).map (fun i =>
    let col := cols.getD (i / 2) []
    if i % 2 = 0 then col.map (fun idx => ltEntry R idx)
    else col.map (fun idx => eqEntry R idx))

/-- The spec's verification failure kind: a proof failing any check is a
normal negative result (§7). -/
inductive VerificationError where
  | InvalidProof
deriving DecidableEq

/-- Modelled from the spec: the proof is an immutable bundle of prover
messages (§3): the claimed evaluation, the sumcheck round polynomials,
and the opened E-column evaluations. -/
structure SparsePolynomialEvaluationProof (F : Type) where
  claimedEval : F
  roundPolys : List (Poly F)
  openedE : List F

/-- The honest round message: the univariate section of the sumcheck
polynomial in the free coordinate, as an explicit coefficient list — the
partial hypercube sum over the remaining coordinates with prefix
challenges substituted as constants. -/
def sectionPoly {F : Type} [Zero F] [One F] [Add F] [Mul F] [Sub F] [Neg F]
    (rr : List F) (E : List (List F)) (ρ : List F) (k : ℕ) : Poly F :=
  ((hypercube F k).map (fun b =>
    lassoF (rr.map pC) (E.map (fun col => col.map pC))
      (ρ.map pC ++ pX :: b.map pC))).sum

/-- Modelled from the spec: the honest prover's sumcheck rounds (§4.4
step 2 with the Fiat–Shamir discipline of step 4): each round appends
the round polynomial's coefficients to the transcript before deriving
the next challenge from it.  Returns the round messages, the challenge
vector and the final transcript. -/
def proveRounds {F : Type} [Zero F] [One F] [Add F] [Mul F] [Sub F] [Neg F]
    (chal : List F → F) (rr : List F) (E : List (List F)) :
    ℕ → List F → List F → List (Poly F) × List F × List F
  | 0, ρ, T => ([], ρ, T)
  | k + 1, ρ, T =>
      let p := sectionPoly rr E ρ k
      let rest := proveRounds chal rr E k (ρ ++ [chal (T ++ p)]) (T ++ p)
      (p :: rest.1, rest.2)

/-- Modelled from the spec: `prove` (§4.4): computes the E columns from
the densified indices, the claimed evaluation as the hypercube sum of
`eq(r,·)·g(E(·))`, runs the sumcheck rounds against the transcript, and
opens the E columns at the resulting challenge point.  The random tape
is an opaque blinding source (§6); the trivial binding commitment needs
no blinding, so it is unused. -/
def prove {F : Type} [Zero F] [One F] [Add F] [Mul F] [Sub F] [Neg F]
    (d : DensifiedRepresentation) (r : List F)
    (gens : SparsePolyCommitmentGens) (T : List F) (tape : List F)
    (chal : List F → F) : SparsePolynomialEvaluationProof F :=
  let E := EcolsOf F d.dim
  let v := hypersum r.length (lassoF r E)
  let pr := proveRounds chal r E r.length [] (T ++ [v])
  { claimedEval := v
    roundPolys := pr.1
    openedE := E.map (fun col => mleEval col pr.2.1) }

/-- Modelled from the spec: the verifier's sumcheck chain (§4.4):
recomputes every challenge from the transcript, checks each round
polynomial's consistency `p(0) + p(1) = claim`, and folds the claim
through `p(c)`.  Any mismatch is a hard failure. -/
def verifyRounds {F : Type} [Zero F] [One F] [Add F] [Mul F] [Sub F]
    [DecidableEq F] (chal : List F → F) :
    List (Poly F) → F → List F → List F →
      Except VerificationError (F × List F × List F)
  | [], claim, ρ, T => .ok (claim, ρ, T)
  | p :: ps, claim, ρ, T =>
      if peval 0 p + peval 1 p = claim then
        let T2 := T ++ p
        let c := chal T2
        verifyRounds chal ps (peval c p) (ρ ++ [c]) T2
      else .error .InvalidProof

/-- Modelled from the spec: `verify` (§4.4): recomputes all challenges
from its own transcript, checks the sumcheck round-polynomial
consistency chain, checks the opened E-column values against the
commitment (the trivial binding commitment collapses the
memory-consistency and opening checks of steps 3–4 into direct
recomputation), and checks the final claim against `eq(r,·)` times
`combine_lookups` of the opened values.  Fails closed. -/
def verify {F : Type} [Zero F] [One F] [Add F] [Mul F] [Sub F] [Neg F]
    [DecidableEq F] (proof : SparsePolynomialEvaluationProof F)
    (comm : Commitment) (r : List F) (gens : SparsePolyCommitmentGens)
    (T : List F) (chal : List F → F) : Except VerificationError Unit :=
  match verifyRounds chal proof.roundPolys proof.claimedEval []
      (T ++ [proof.claimedEval]) with
  | .error e => .error e
  | .ok res =>
      if proof.roundPolys.length = r.length ∧
          proof.openedE =
            (EcolsOf F comm.cols).map (fun col => mleEval col res.2.1) ∧
          res.1 = eqList r res.2.1 *
            LTInstruction.combineGo proof.openedE 0 1 then
        .ok ()
      else .error .InvalidProof

/-- A concrete four-row batch of LT lookup index vectors (entries below
M = 2^16) used by the round-trip witness. -/
def nzExample : List (List ℕ) :=
  [[0, 0, 0, 0, 0, 0, 0, 0],
   [1, 2, 3, 4, 5, 6, 7, 8],
   [256, 512, 770, 43, 99, 1000, 65535, 2],
   [3, 1, 4, 1, 5, 9, 2, 6]]

/-- A concrete deterministic challenge function for the round-trip
witness: any function of the transcript works, since identical message
sequences then yield identical challenges. -/
def chalExample (l : List ℤ) : ℤ := l.sum

/-- Concrete generators sized (C, S, table count, log M) = (8, 4, 16, 16)
for the round-trip witness. -/
def gensExample : SparsePolyCommitmentGens := ⟨8, 4, 16, 16⟩

-- ===================== THEOREMS =====================

/-- The value of a bit list is below `2 ^ length`. -/
theorem bitsToNat_lt (bs : List Bool) : bitsToNat bs < 2 ^ bs.length := by
  induction bs with
  | nil => simp [bitsToNat]
  | cons b bs ih =>
      simp only [bitsToNat, List.length_cons, pow_succ]
      cases b <;> simp <;> omega

/-- On a fixed length, `bitsToNat` is injective. -/
theorem bitsToNat_inj (xs ys : List Bool) (h : xs.length = ys.length) :
    bitsToNat xs = bitsToNat ys ↔ xs = ys := by
  induction xs generalizing ys with
  | nil => cases ys with
      | nil => simp
      | cons y ys => simp at h
  | cons x xs ih =>
      cases ys with
      | nil => simp at h
      | cons y ys =>
          simp only [List.length_cons, Nat.succ_inj] at h
          have hx := bitsToNat_lt xs
          have hy := bitsToNat_lt ys
          rw [h] at hx
          simp only [bitsToNat, h, List.cons.injEq, ← ih ys h]
          cases x <;> cases y <;> simp <;> omega

/-- On embedded Boolean half-points, the bit-serial less-than accumulator
computes the strict comparison of the two halves' values. -/
theorem ltMleGo_boolean {R : Type} [CommRing R] :
    ∀ (xs ys : List Bool), xs.length = ys.length → ∀ (res eqt : R),
      LTSubtable.ltMleGo (embedPoint R xs) (embedPoint R ys) res eqt =
        res + eqt * (if bitsToNat xs < bitsToNat ys then 1 else 0)
  | [], [], _, res, eqt => by
      simp [embedPoint, LTSubtable.ltMleGo, bitsToNat]
  | [], y :: ys, h, res, eqt => by simp at h
  | x :: xs, [], h, res, eqt => by simp at h
  | x :: xs, y :: ys, h, res, eqt => by
      simp only [List.length_cons, Nat.succ_inj] at h
      have hx := bitsToNat_lt xs
      have hy := bitsToNat_lt ys
      rw [h] at hx
      simp only [embedPoint, List.map_cons, LTSubtable.ltMleGo]
      rw [show List.map (boolVal R) xs = embedPoint R xs from rfl,
          show List.map (boolVal R) ys = embedPoint R ys from rfl,
          ltMleGo_boolean xs ys h]
      cases x <;> cases y <;>
        simp only [bitsToNat, boolVal, if_true, Bool.false_eq_true, if_false,
          one_mul, zero_mul, Nat.zero_add]
      · ring
      · rw [if_pos (by omega : bitsToNat xs < 2 ^ ys.length + bitsToNat ys)]
        ring
      · rw [h]
        rw [if_neg (by omega : ¬ 2 ^ ys.length + bitsToNat xs < bitsToNat ys)]
        ring
      · rw [h]
        simp only [Nat.add_lt_add_iff_left]
        ring

/-- On embedded Boolean half-points, the equality-kernel accumulator
computes the indicator that the two halves agree. -/
theorem eqMleGo_boolean {R : Type} [CommRing R] :
    ∀ (xs ys : List Bool), xs.length = ys.length → ∀ (eqt : R),
      EQSubtable.eqMleGo (embedPoint R xs) (embedPoint R ys) eqt =
        eqt * (if xs = ys then 1 else 0)
  | [], [], _, eqt => by simp [embedPoint, EQSubtable.eqMleGo]
  | [], y :: ys, h, eqt => by simp at h
  | x :: xs, [], h, eqt => by simp at h
  | x :: xs, y :: ys, h, eqt => by
      simp only [List.length_cons, Nat.succ_inj] at h
      simp only [embedPoint, List.map_cons, EQSubtable.eqMleGo]
      rw [show List.map (boolVal R) xs = embedPoint R xs from rfl,
          show List.map (boolVal R) ys = embedPoint R ys from rfl,
          eqMleGo_boolean xs ys h]
      cases x <;> cases y <;>
        simp only [boolVal, if_true, Bool.false_eq_true, if_false,
          List.cons.injEq, true_and, false_and, reduceCtorEq, if_false] <;>
        try rw [if_neg (fun hc => by simp at hc : ¬ _)]
      · ring
      · ring
      · ring
      · ring

/-- Entry of a mapped counting list: symbolic form, never evaluated. -/
theorem getD_range_map {R : Type} (f : ℕ → R) (d : R) (n i : ℕ) (h : i < n) :
    ((List.range n).map f).getD i d = f i := by
  rw [List.getD_eq_getElem _ _ (by simpa using h)]
  simp

/-- The materialized LT table has one row per table index. -/
theorem lt_materialize_length (R : Type) [Zero R] [One R] :
    (LTSubtable.materialize R).length = LTSubtable.memory_size := by
  simp [LTSubtable.materialize]

/-- The materialized EQ table has one row per table index. -/
theorem eq_materialize_length (R : Type) [Zero R] [One R] :
    (EQSubtable.materialize R).length = EQSubtable.memory_size := by
  simp [EQSubtable.materialize]

/-- Row `idx` of the materialized LT table is the indicator that the high
8 bits of `idx` are strictly below the low 8 bits. -/
theorem lt_materialize_getD (R : Type) [Zero R] [One R] (idx : ℕ)
    (h : idx < 2 ^ 16) :
    (LTSubtable.materialize R).getD idx 0 =
      if idx / 2 ^ 8 < idx % 2 ^ 8 then (1 : R) else 0 := by
  have h16 : Nat.log2 LTSubtable.memory_size = 16 := by
    rw [show LTSubtable.memory_size = 2 ^ 16 from rfl, Nat.log2_eq_log_two]
    exact Nat.log_pow one_lt_two 16
  have hlog : Nat.log2 LTSubtable.memory_size / 2 = 8 := by omega
  have hm : idx < LTSubtable.memory_size := h
  simp only [LTSubtable.materialize, hlog]
  rw [getD_range_map _ _ _ _ hm]
  simp [split_bits]

/-- Row `idx` of the materialized EQ table is the indicator that the high
8 bits of `idx` equal the low 8 bits. -/
theorem eq_materialize_getD (R : Type) [Zero R] [One R] (idx : ℕ)
    (h : idx < 2 ^ 16) :
    (EQSubtable.materialize R).getD idx 0 =
      if idx / 2 ^ 8 = idx % 2 ^ 8 then (1 : R) else 0 := by
  have h16 : Nat.log2 EQSubtable.memory_size = 16 := by
    rw [show EQSubtable.memory_size = 2 ^ 16 from rfl, Nat.log2_eq_log_two]
    exact Nat.log_pow one_lt_two 16
  have hlog : Nat.log2 EQSubtable.memory_size / 2 = 8 := by omega
  have hm : idx < EQSubtable.memory_size := h
  simp only [EQSubtable.materialize, hlog]
  rw [getD_range_map _ _ _ _ hm]
  simp [split_bits]

/-- C1: for both subtable kinds of the worked example (LT and EQ), on
every Boolean-valued point of the table's MLE domain — even length
2b = log M = 16, i.e. two 8-coordinate sub-operand halves —
`evaluate_mle` at the embedded point equals the `materialize` entry at
`bits_to_index`, which packs the first half as the bits of the left
sub-operand and the second half as the bits of the right sub-operand, in
the bit order `materialize`'s `split_bits` uses. -/
theorem evaluate_mle_eq_materialize (R : Type) [CommRing R] (p : List Bool)
    (hp : p.length = 16) :
    LTSubtable.evaluate_mle (embedPoint R p) =
      (LTSubtable.materialize R).getD (bits_to_index p) 0 ∧
    EQSubtable.evaluate_mle (embedPoint R p) =
      (EQSubtable.materialize R).getD (bits_to_index p) 0 := by
  have hlx : (p.take 8).length = 8 := by simp [hp]
  have hly : (p.drop 8).length = 8 := by simp [hp]
  have hxlt : bitsToNat (p.take 8) < 2 ^ 8 := by
    have := bitsToNat_lt (p.take 8); rwa [hlx] at this
  have hylt : bitsToNat (p.drop 8) < 2 ^ 8 := by
    have := bitsToNat_lt (p.drop 8); rwa [hly] at this
  have hidx : bits_to_index p =
      bitsToNat (p.take 8) * 2 ^ 8 + bitsToNat (p.drop 8) := by
    simp [bits_to_index, hp]
  have hbound : bits_to_index p < 2 ^ 16 := by rw [hidx]; omega
  have hdiv : bits_to_index p / 2 ^ 8 = bitsToNat (p.take 8) := by
    rw [hidx]; omega
  have hmod : bits_to_index p % 2 ^ 8 = bitsToNat (p.drop 8) := by
    rw [hidx]; omega
  have hlen : (embedPoint R p).length = 16 := by simp [embedPoint, hp]
  have hmt : (embedPoint R p).take 8 = embedPoint R (p.take 8) := by
    simp [embedPoint, List.map_take]
  have hmd : (embedPoint R p).drop 8 = embedPoint R (p.drop 8) := by
    simp [embedPoint, List.map_drop]
  have hxy : (p.take 8).length = (p.drop 8).length := by rw [hlx, hly]
  constructor
  · rw [lt_materialize_getD R _ hbound, hdiv, hmod]
    simp only [LTSubtable.evaluate_mle, hlen]
    norm_num
    rw [hmt, hmd, ltMleGo_boolean (p.take 8) (p.drop 8) hxy 0 1]
    ring
  · rw [eq_materialize_getD R _ hbound, hdiv, hmod]
    simp only [EQSubtable.evaluate_mle, hlen]
    norm_num
    rw [hmt, hmd, eqMleGo_boolean (p.take 8) (p.drop 8) hxy 1]
    rw [if_congr (bitsToNat_inj (p.take 8) (p.drop 8) hxy) rfl rfl]
    ring

/-- C1 witness: the Boolean-agreement law instantiated at the all-ones
point of length 16 over the integers. -/
theorem evaluate_mle_eq_materialize_witness :
    (List.replicate 16 true).length = 16 ∧
    (LTSubtable.evaluate_mle (embedPoint ℤ (List.replicate 16 true)) =
       (LTSubtable.materialize ℤ).getD (bits_to_index (List.replicate 16 true)) 0 ∧
     EQSubtable.evaluate_mle (embedPoint ℤ (List.replicate 16 true)) =
       (EQSubtable.materialize ℤ).getD (bits_to_index (List.replicate 16 true)) 0) :=
  ⟨by decide, evaluate_mle_eq_materialize ℤ (List.replicate 16 true) (by decide)⟩

/-- C8: both materializations are vectors of exactly M = 2^16 entries in
canonical counting order: the LT entry at each row index is the indicator
that the high 8 bits (left sub-operand) are strictly less than the low
8 bits (right sub-operand), and the EQ entry the indicator that they are
equal. -/
theorem materialize_counting_order (R : Type) [Zero R] [One R] (idx : ℕ)
    (h : idx < 2 ^ 16) :
    (LTSubtable.materialize R).length = LTSubtable.memory_size ∧
    (EQSubtable.materialize R).length = EQSubtable.memory_size ∧
    (LTSubtable.materialize R).getD idx 0 =
      (if idx / 2 ^ 8 < idx % 2 ^ 8 then (1 : R) else 0) ∧
    (EQSubtable.materialize R).getD idx 0 =
      (if idx / 2 ^ 8 = idx % 2 ^ 8 then (1 : R) else 0) :=
  ⟨lt_materialize_length R, eq_materialize_length R,
   lt_materialize_getD R idx h, eq_materialize_getD R idx h⟩

/-- C8 witness: the counting-order law instantiated at row 258 over the
integers. -/
theorem materialize_counting_order_witness :
    (258 : ℕ) < 2 ^ 16 ∧
    ((LTSubtable.materialize ℤ).length = LTSubtable.memory_size ∧
     (EQSubtable.materialize ℤ).length = EQSubtable.memory_size ∧
     (LTSubtable.materialize ℤ).getD 258 0 =
       (if 258 / 2 ^ 8 < 258 % 2 ^ 8 then (1 : ℤ) else 0) ∧
     (EQSubtable.materialize ℤ).getD 258 0 =
       (if 258 / 2 ^ 8 = 258 % 2 ^ 8 then (1 : ℤ) else 0)) :=
  ⟨by decide, materialize_counting_order ℤ 258 (by decide)⟩

/-- The combine loop over a dimension-major list of comparison indicators
computes the lexicographic comparison of the two digit lists. -/
theorem combineGo_lex {R : Type} [CommRing R] :
    ∀ (a b : List ℕ), a.length = b.length → ∀ (s e : R),
      LTInstruction.combineGo
        ((List.zipWith
            (fun u v => [(if u < v then (1 : R) else 0),
                         (if u = v then (1 : R) else 0)]) a b).flatten) s e =
        s + e * (if lexLt a b then 1 else 0)
  | [], [], _, s, e => by simp [LTInstruction.combineGo, lexLt]
  | [], v :: bs, h, s, e => by simp at h
  | u :: as, [], h, s, e => by simp at h
  | u :: as, v :: bs, h, s, e => by
      simp only [List.length_cons, Nat.succ_inj] at h
      simp only [List.zipWith_cons_cons, List.flatten_cons, List.cons_append,
        List.append_eq, List.nil_append, LTInstruction.combineGo]
      rw [combineGo_lex as bs h]
      rcases Nat.lt_trichotomy u v with hc | hc | hc
      · rw [if_pos hc, if_neg (Nat.ne_of_lt hc)]
        simp only [lexLt, hc]
        simp
      · subst hc
        rw [if_neg (lt_irrefl u), if_pos rfl]
        simp only [lexLt, lt_irrefl]
        simp
      · have h1 : ¬ u < v := Nat.lt_asymm hc
        have h2 : ¬ u = v := Ne.symm (Nat.ne_of_lt hc)
        rw [if_neg h1, if_neg h2]
        simp only [lexLt, h1, h2]
        simp

/-- One operand always yields exactly C chunks. -/
theorem chunk_operand_length (x C w : ℕ) : (chunk_operand x C w).length = C := by
  simp [chunk_operand]

/-- Every chunk fits in its bit window. -/
theorem chunk_operand_lt (x C w : ℕ) :
    ∀ c ∈ chunk_operand x C w, c < 2 ^ w := by
  intro c hc
  simp only [chunk_operand, List.mem_map] at hc
  obtain ⟨i, -, rfl⟩ := hc
  exact Nat.mod_lt _ (by positivity)

/-- A digit below the high cutoff is unchanged by first reducing the
number modulo the cutoff. -/
theorem chunk_digit_eq (x w j m : ℕ) (h : j < m) :
    x / 2 ^ (j * w) % 2 ^ w = x % 2 ^ (m * w) / 2 ^ (j * w) % 2 ^ w := by
  rw [← Nat.mod_mul_right_div_self, ← Nat.mod_mul_right_div_self,
      Nat.mod_mod_of_dvd]
  rw [← pow_add]
  apply pow_dvd_pow
  have h1 : (j + 1) * w ≤ m * w := Nat.mul_le_mul_right w h
  rw [add_mul, one_mul] at h1
  omega

/-- Peeling off the most significant chunk. -/
theorem chunk_operand_succ (x C w : ℕ) :
    chunk_operand x (C + 1) w =
      x / 2 ^ (C * w) % 2 ^ w :: chunk_operand (x % 2 ^ (C * w)) C w := by
  simp only [chunk_operand, List.range_succ_eq_map, List.map_cons, List.map_map]
  congr 1
  apply List.map_congr_left
  intro i hmem
  have hi : i < C := List.mem_range.mp hmem
  simp only [Function.comp_apply, Nat.add_sub_cancel]
  have harg : C - (i + 1) = C - 1 - i := by omega
  rw [harg]
  exact chunk_digit_eq x w (C - 1 - i) C (by omega)

/-- Positional comparison of two digit expansions with a common base. -/
theorem base_lt_iff (B a c r s : ℕ) (hr : r < B) (hs : s < B) :
    a * B + r < c * B + s ↔ a < c ∨ (a = c ∧ r < s) := by
  constructor
  · intro hlt
    rcases Nat.lt_trichotomy a c with hh | hh | hh
    · exact Or.inl hh
    · subst hh
      exact Or.inr ⟨rfl, by omega⟩
    · exfalso
      have h1 : c * B + s < (c + 1) * B := by
        calc c * B + s < c * B + B := Nat.add_lt_add_left hs _
          _ = (c + 1) * B := by ring
      have h2 : (c + 1) * B ≤ a * B := Nat.mul_le_mul_right B hh
      have h3 : a * B ≤ a * B + r := Nat.le_add_right _ _
      exact Nat.lt_irrefl _ (lt_of_lt_of_le hlt (le_trans (le_trans h1.le h2) h3))
  · intro hor
    rcases hor with hh | ⟨hh, hrs⟩
    · calc a * B + r < a * B + B := Nat.add_lt_add_left hr _
        _ = (a + 1) * B := by ring
        _ ≤ c * B := Nat.mul_le_mul_right B hh
        _ ≤ c * B + s := Nat.le_add_right _ _
    · subst hh
      exact Nat.add_lt_add_left hrs _

/-- The chunk lists of two words compare lexicographically exactly as the
words compare as unsigned integers of C·w bits. -/
theorem lexLt_chunks (w : ℕ) :
    ∀ (C x y : ℕ), x < 2 ^ (C * w) → y < 2 ^ (C * w) →
      (lexLt (chunk_operand x C w) (chunk_operand y C w) = true ↔ x < y)
  | 0, x, y, hx, hy => by
      have hx0 : x = 0 := by
        have h1 : x < 1 := by simpa using hx
        omega
      have hy0 : y = 0 := by
        have h1 : y < 1 := by simpa using hy
        omega
      subst hx0; subst hy0
      simp [chunk_operand, lexLt]
  | C + 1, x, y, hx, hy => by
      have hB : (0 : ℕ) < 2 ^ (C * w) := pow_pos (by norm_num) _
      have hpow : (2 : ℕ) ^ ((C + 1) * w) = 2 ^ (C * w) * 2 ^ w := by
        rw [← pow_add]; ring_nf
      have hxd : x / 2 ^ (C * w) % 2 ^ w = x / 2 ^ (C * w) :=
        Nat.mod_eq_of_lt ((Nat.div_lt_iff_lt_mul hB).mpr (by
          rw [hpow] at hx; exact (by rw [mul_comm] at hx; exact hx)))
      have hyd : y / 2 ^ (C * w) % 2 ^ w = y / 2 ^ (C * w) :=
        Nat.mod_eq_of_lt ((Nat.div_lt_iff_lt_mul hB).mpr (by
          rw [hpow] at hy; exact (by rw [mul_comm] at hy; exact hy)))
      rw [chunk_operand_succ, chunk_operand_succ, hxd, hyd]
      have hIH := lexLt_chunks w C (x % 2 ^ (C * w)) (y % 2 ^ (C * w))
        (Nat.mod_lt _ hB) (Nat.mod_lt _ hB)
      simp only [lexLt, Bool.or_eq_true, decide_eq_true_eq, Bool.and_eq_true,
        hIH]
      have hx' : x = x / 2 ^ (C * w) * 2 ^ (C * w) + x % 2 ^ (C * w) := by
        rw [mul_comm]; exact (Nat.div_add_mod x _).symm
      have hy' : y = y / 2 ^ (C * w) * 2 ^ (C * w) + y % 2 ^ (C * w) := by
        rw [mul_comm]; exact (Nat.div_add_mod y _).symm
      conv_rhs => rw [hx', hy']
      rw [base_lt_iff (2 ^ (C * w)) _ _ _ _ (Nat.mod_lt _ hB) (Nat.mod_lt _ hB)]

/-- to_indices in closed form when log_M is even. -/
theorem to_indices_even (x y C log_M : ℕ) (h : log_M % 2 = 0) :
    JoltInstruction.to_indices x y C log_M =
      .ok (List.zipWith (fun a b => a * 2 ^ (log_M / 2) + b)
        (chunk_operand x C (log_M / 2)) (chunk_operand y C (log_M / 2))) := by
  simp [JoltInstruction.to_indices, JoltInstruction.operand_chunks, h]

/-- The LT entry at a packed row index is the chunk comparison indicator. -/
theorem ltEntry_pack (R : Type) [Zero R] [One R] (a b : ℕ)
    (ha : a < 2 ^ 8) (hb : b < 2 ^ 8) :
    ltEntry R (a * 2 ^ 8 + b) = if a < b then (1 : R) else 0 := by
  have hidx : a * 2 ^ 8 + b < 2 ^ 16 := by omega
  rw [ltEntry, lt_materialize_getD R _ hidx]
  have hdiv : (a * 2 ^ 8 + b) / 2 ^ 8 = a := by omega
  have hmod : (a * 2 ^ 8 + b) % 2 ^ 8 = b := by omega
  rw [hdiv, hmod]

/-- The EQ entry at a packed row index is the chunk equality indicator. -/
theorem eqEntry_pack (R : Type) [Zero R] [One R] (a b : ℕ)
    (ha : a < 2 ^ 8) (hb : b < 2 ^ 8) :
    eqEntry R (a * 2 ^ 8 + b) = if a = b then (1 : R) else 0 := by
  have hidx : a * 2 ^ 8 + b < 2 ^ 16 := by omega
  rw [eqEntry, eq_materialize_getD R _ hidx]
  have hdiv : (a * 2 ^ 8 + b) / 2 ^ 8 = a := by omega
  have hmod : (a * 2 ^ 8 + b) % 2 ^ 8 = b := by omega
  rw [hdiv, hmod]

/-- The dimension-major value vector over packed indices is the flattened
list of per-chunk comparison indicator pairs. -/
theorem interleaved_pack (R : Type) [Zero R] [One R] :
    ∀ (as bs : List ℕ), (∀ a ∈ as, a < 2 ^ 8) → (∀ b ∈ bs, b < 2 ^ 8) →
      interleavedVals R (List.zipWith (fun a b => a * 2 ^ 8 + b) as bs) =
        (List.zipWith
          (fun a b => [(if a < b then (1 : R) else 0),
                       (if a = b then (1 : R) else 0)]) as bs).flatten
  | [], bs, _, _ => by cases bs <;> simp [interleavedVals]
  | a :: as, [], _, _ => by simp [interleavedVals]
  | a :: as, b :: bs, ha, hb => by
      have ha' : a < 2 ^ 8 := ha a (by simp)
      have hb' : b < 2 ^ 8 := hb b (by simp)
      simp only [List.zipWith_cons_cons, interleavedVals, List.map_cons,
        List.flatten_cons]
      rw [ltEntry_pack R a b ha' hb', eqEntry_pack R a b ha' hb']
      congr 1
      exact interleaved_pack R as bs
        (fun z hz => ha z (List.mem_cons_of_mem a hz))
        (fun z hz => hb z (List.mem_cons_of_mem b hz))

/-- Length of a flattened zip of indicator pairs. -/
theorem zip_pair_flatten_length {R : Type} (f g : ℕ → ℕ → R) :
    ∀ (as bs : List ℕ), as.length = bs.length →
      ((List.zipWith (fun a b => [f a b, g a b]) as bs).flatten).length =
        2 * as.length
  | [], [], _ => by simp
  | [], b :: bs, h => by simp at h
  | a :: as, [], h => by simp at h
  | a :: as, b :: bs, h => by
      simp only [List.length_cons, Nat.succ_inj] at h
      simp only [List.zipWith_cons_cons, List.flatten_cons, List.length_append,
        List.length_cons, List.length_nil]
      rw [zip_pair_flatten_length f g as bs h]
      omega

/-- C2 amended: with the value vector laid out dimension-major — for each
chunk i its LT entry at position 2i and its EQ entry at position 2i+1,
the layout the combine_lookups loop actually reads — combining the
materialized entries at the row indices of to_indices equals
lookup_entry, the unsigned 64-bit comparison of the operands. -/
theorem combine_lookups_eq_lookup_entry (R : Type) [CommRing R] (x y : ℕ)
    (hx : x < 2 ^ 64) (hy : y < 2 ^ 64) (idxs : List ℕ)
    (hidx : JoltInstruction.to_indices x y 8 16 = .ok idxs) :
    LTInstruction.combine_lookups (interleavedVals R idxs) =
      .ok ((LTInstruction.lookup_entry x y : ℕ) : R) := by
  rw [to_indices_even x y 8 16 (by norm_num)] at hidx
  simp only [show (16 : ℕ) / 2 = 8 from by norm_num, Except.ok.injEq] at hidx
  subst hidx
  rw [interleaved_pack R _ _ (chunk_operand_lt x 8 8) (chunk_operand_lt y 8 8)]
  have hcl : (chunk_operand x 8 8).length = (chunk_operand y 8 8).length := by
    rw [chunk_operand_length, chunk_operand_length]
  have hlen16 : ((List.zipWith
      (fun a b => [(if a < b then (1 : R) else 0),
                   (if a = b then (1 : R) else 0)])
      (chunk_operand x 8 8) (chunk_operand y 8 8)).flatten).length =
      LTInstruction.num_memories := by
    rw [zip_pair_flatten_length _ _ _ _ hcl, chunk_operand_length]
    decide
  have hlex := lexLt_chunks 8 8 x y (by simpa using hx) (by simpa using hy)
  rw [LTInstruction.combine_lookups, if_pos hlen16, combineGo_lex _ _ hcl 0 1]
  by_cases hxy : x < y
  · rw [if_pos (hlex.mpr hxy)]
    simp [LTInstruction.lookup_entry, hxy]
  · rw [if_neg (fun hcon => hxy (hlex.mp hcon))]
    simp [LTInstruction.lookup_entry, hxy]

/-- C2 counterexample: with the value vector grouped by subtable in the
exact order the subtables method returns the groups — all LT entries,
then all EQ entries, the ordering the claim states — the combined value
at operands (0, 1) is 0, while lookup_entry is 1, so the claim as stated
fails on the code. -/
theorem combine_grouped_counterexample :
    JoltInstruction.to_indices 0 1 8 16 = .ok [0, 0, 0, 0, 0, 0, 0, 1] ∧
    LTInstruction.combine_lookups (groupedVals ℤ [0, 0, 0, 0, 0, 0, 0, 1]) =
      .ok 0 ∧
    LTInstruction.lookup_entry 0 1 = 1 := by
  refine ⟨?_, ?_, by decide⟩
  · rw [to_indices_even 0 1 8 16 (by norm_num)]
    simp only [Except.ok.injEq]
    decide
  · have e0 : ltEntry ℤ 0 = 0 := by
      rw [ltEntry, lt_materialize_getD ℤ 0 (by norm_num)]; norm_num
    have e1 : ltEntry ℤ 1 = 1 := by
      rw [ltEntry, lt_materialize_getD ℤ 1 (by norm_num)]; norm_num
    have f0 : eqEntry ℤ 0 = 1 := by
      rw [eqEntry, eq_materialize_getD ℤ 0 (by norm_num)]; norm_num
    have f1 : eqEntry ℤ 1 = 0 := by
      rw [eqEntry, eq_materialize_getD ℤ 1 (by norm_num)]; norm_num
    have hg : groupedVals ℤ [0, 0, 0, 0, 0, 0, 0, 1] =
        [0, 0, 0, 0, 0, 0, 0, 1, 1, 1, 1, 1, 1, 1, 1, 0] := by
      simp [groupedVals, e0, e1, f0, f1]
    rw [hg, LTInstruction.combine_lookups, if_pos (by decide)]
    simp only [Except.ok.injEq]
    norm_num [LTInstruction.combineGo]

/-- C2 witness: the amended combine law instantiated at operands (3, 5)
over the integers, whose row indices are seven zeros and 3·256 + 5. -/
theorem combine_lookups_eq_lookup_entry_witness :
    (3 : ℕ) < 2 ^ 64 ∧ (5 : ℕ) < 2 ^ 64 ∧
    JoltInstruction.to_indices 3 5 8 16 = .ok [0, 0, 0, 0, 0, 0, 0, 773] ∧
    LTInstruction.combine_lookups
        (interleavedVals ℤ [0, 0, 0, 0, 0, 0, 0, 773]) =
      .ok ((LTInstruction.lookup_entry 3 5 : ℕ) : ℤ) := by
  have hti : JoltInstruction.to_indices 3 5 8 16 =
      .ok [0, 0, 0, 0, 0, 0, 0, 773] := by
    rw [to_indices_even 3 5 8 16 (by norm_num)]
    simp only [Except.ok.injEq]
    decide
  exact ⟨by norm_num, by norm_num, hti,
    combine_lookups_eq_lookup_entry ℤ 3 5 (by norm_num) (by norm_num) _ hti⟩

/-- The slicing recursion succeeds and partitions the suffix exactly when
the group lengths sum to the remaining value count. -/
theorem sliceGo_ok {R : Type} (vals : List R) :
    ∀ (groups : List SubtableIndices) (offset : ℕ),
      offset + (groups.map SubtableIndices.len).sum = vals.length →
      ∃ ss, sliceGo vals groups offset = .ok ss ∧
        ss.length = groups.length ∧
        ss.map List.length = groups.map SubtableIndices.len ∧
        ss.flatten = vals.drop offset
  | [], offset => by
      intro h
      simp only [List.map_nil, List.sum_nil, Nat.add_zero] at h
      refine ⟨[], by simp [sliceGo, h], rfl, rfl, ?_⟩
      rw [h, List.drop_length]
      rfl
  | g :: gs, offset => by
      intro h
      simp only [List.map_cons, List.sum_cons] at h
      have hle : offset + g.len ≤ vals.length := by omega
      obtain ⟨ss, hok, hlen, hmap, hflat⟩ :=
        sliceGo_ok vals gs (offset + g.len) (by omega)
      refine ⟨((vals.drop offset).take g.len) :: ss, ?_, ?_, ?_, ?_⟩
      · simp [sliceGo, hle, hok]
      · simp [hlen]
      · simp only [List.map_cons, hmap, List.cons.injEq, and_true]
        simp only [List.length_take, List.length_drop]
        omega
      · rw [List.flatten_cons, hflat]
        have hdd : vals.drop (offset + g.len) = (vals.drop offset).drop g.len := by
          rw [List.drop_drop]
        rw [hdd, List.take_append_drop]

/-- C5: whenever the value vector has length exactly the sum of the
group's SubtableIndices lengths, slice_values does not panic (returns ok),
yields one slice per group whose i-th slice has the i-th group's length,
and the concatenation of the slices reconstructs the input. -/
theorem slice_values_spec {R : Type} (vals : List R)
    (groups : List SubtableIndices)
    (h : vals.length = (groups.map SubtableIndices.len).sum) :
    ∃ ss, slice_values vals groups = .ok ss ∧
      ss.length = groups.length ∧
      ss.map List.length = groups.map SubtableIndices.len ∧
      ss.flatten = vals := by
  obtain ⟨ss, hok, hlen, hmap, hflat⟩ := sliceGo_ok vals groups 0 (by omega)
  exact ⟨ss, hok, hlen, hmap, by simpa using hflat⟩

/-- C5 witness: three values sliced through groups of lengths 2 and 1
over the integers. -/
theorem slice_values_spec_witness :
    ([10, 20, 30] : List ℤ).length =
      (([⟨[true, false, true]⟩, ⟨[false, true]⟩] :
          List SubtableIndices).map SubtableIndices.len).sum ∧
    ∃ ss, slice_values ([10, 20, 30] : List ℤ)
        [⟨[true, false, true]⟩, ⟨[false, true]⟩] = .ok ss ∧
      ss.length = ([⟨[true, false, true]⟩, ⟨[false, true]⟩] :
          List SubtableIndices).length ∧
      ss.map List.length = (([⟨[true, false, true]⟩, ⟨[false, true]⟩] :
          List SubtableIndices).map SubtableIndices.len) ∧
      ss.flatten = ([10, 20, 30] : List ℤ) :=
  ⟨by decide, slice_values_spec [10, 20, 30]
      [⟨[true, false, true]⟩, ⟨[false, true]⟩] (by decide)⟩

/-- Packed chunk indices stay below the doubled bit width. -/
theorem zipWith_pack_bound (w : ℕ) :
    ∀ (as bs : List ℕ), (∀ a ∈ as, a < 2 ^ w) → (∀ b ∈ bs, b < 2 ^ w) →
      ∀ i ∈ List.zipWith (fun a b => a * 2 ^ w + b) as bs, i < 2 ^ (2 * w)
  | [], bs, _, _ => by simp
  | a :: as, [], _, _ => by simp
  | a :: as, b :: bs, ha, hb => by
      intro i hi
      simp only [List.zipWith_cons_cons, List.mem_cons] at hi
      rcases hi with hi | hi
      · subst hi
        have ha' : a < 2 ^ w := ha a (by simp)
        have hb' : b < 2 ^ w := hb b (by simp)
        calc a * 2 ^ w + b < a * 2 ^ w + 2 ^ w := Nat.add_lt_add_left hb' _
          _ = (a + 1) * 2 ^ w := by ring
          _ ≤ 2 ^ w * 2 ^ w := Nat.mul_le_mul_right _ ha'
          _ = 2 ^ (2 * w) := by rw [← pow_add]; ring_nf
      · exact zipWith_pack_bound w as bs
          (fun z hz => ha z (List.mem_cons_of_mem a hz))
          (fun z hz => hb z (List.mem_cons_of_mem b hz)) i hi

/-- C6: for every operand pair, every dimension C and every even log_M,
to_indices succeeds deterministically with exactly C table-row indices,
each strictly less than M = 2^log_M. -/
theorem to_indices_count_and_range (x y C log_M : ℕ) (h : log_M % 2 = 0) :
    ∃ l, JoltInstruction.to_indices x y C log_M = .ok l ∧
      l.length = C ∧ ∀ i ∈ l, i < 2 ^ log_M := by
  refine ⟨_, to_indices_even x y C log_M h, ?_, ?_⟩
  · simp [List.length_zipWith, chunk_operand_length]
  · have hb := zipWith_pack_bound (log_M / 2)
      (chunk_operand x C (log_M / 2)) (chunk_operand y C (log_M / 2))
      (chunk_operand_lt x C (log_M / 2)) (chunk_operand_lt y C (log_M / 2))
    have h2 : 2 * (log_M / 2) = log_M := by omega
    rw [h2] at hb
    exact hb

/-- C6 witness: the index law instantiated at operands (1, 2), dimension
4 and log_M = 6. -/
theorem to_indices_count_and_range_witness :
    (6 : ℕ) % 2 = 0 ∧
    ∃ l, JoltInstruction.to_indices 1 2 4 6 = .ok l ∧
      l.length = 4 ∧ ∀ i ∈ l, i < 2 ^ 6 :=
  ⟨by decide, to_indices_count_and_range 1 2 4 6 (by decide)⟩

/-- C7: an odd log_M makes operand_chunks and to_indices fail with the
InvalidParameter kind, surfaced to the caller; an even log_M makes
operand_chunks succeed, splitting each of the two operand words
independently into C chunks of log_M/2 bits each. -/
theorem operand_chunks_parity (x y C log_M : ℕ) :
    (log_M % 2 ≠ 0 →
      JoltInstruction.operand_chunks x y C log_M = .error .InvalidParameter ∧
      JoltInstruction.to_indices x y C log_M = .error .InvalidParameter) ∧
    (log_M % 2 = 0 →
      JoltInstruction.operand_chunks x y C log_M =
        .ok (chunk_operand x C (log_M / 2), chunk_operand y C (log_M / 2)) ∧
      (chunk_operand x C (log_M / 2)).length = C ∧
      (chunk_operand y C (log_M / 2)).length = C ∧
      (∀ c ∈ chunk_operand x C (log_M / 2), c < 2 ^ (log_M / 2)) ∧
      (∀ c ∈ chunk_operand y C (log_M / 2), c < 2 ^ (log_M / 2))) := by
  constructor
  · intro h
    constructor
    · simp [JoltInstruction.operand_chunks, h]
    · simp [JoltInstruction.to_indices, JoltInstruction.operand_chunks, h]
  · intro h
    exact ⟨by simp [JoltInstruction.operand_chunks, h],
      chunk_operand_length x C (log_M / 2), chunk_operand_length y C (log_M / 2),
      chunk_operand_lt x C (log_M / 2), chunk_operand_lt y C (log_M / 2)⟩

/-- C7 witness: the parity law instantiated at odd log_M = 7 and at even
log_M = 6, operands (9, 4), dimension 3. -/
theorem operand_chunks_parity_witness :
    ((7 : ℕ) % 2 ≠ 0 ∧
      JoltInstruction.operand_chunks 9 4 3 7 = .error .InvalidParameter ∧
      JoltInstruction.to_indices 9 4 3 7 = .error .InvalidParameter) ∧
    ((6 : ℕ) % 2 = 0 ∧
      JoltInstruction.operand_chunks 9 4 3 6 =
        .ok (chunk_operand 9 3 (6 / 2), chunk_operand 4 3 (6 / 2)) ∧
      (chunk_operand 9 3 (6 / 2)).length = 3 ∧
      (chunk_operand 4 3 (6 / 2)).length = 3 ∧
      (∀ c ∈ chunk_operand 9 3 (6 / 2), c < 2 ^ (6 / 2)) ∧
      (∀ c ∈ chunk_operand 4 3 (6 / 2), c < 2 ^ (6 / 2))) :=
  ⟨⟨by decide, (operand_chunks_parity 9 4 3 7).1 (by decide)⟩,
   ⟨by decide, (operand_chunks_parity 9 4 3 6).2 (by decide)⟩⟩

/-- The number of set bits equals the number of set positions the
counting filter finds. -/
theorem count_true_eq_filter_length :
    ∀ (bs : List Bool),
      bs.count true =
        ((List.range bs.length).filter (fun i => bs.getD i false)).length
  | [] => by simp
  | b :: bs => by
      have hcomp : ((fun i => (b :: bs).getD i false) ∘ Nat.succ) =
          (fun i => bs.getD i false) := by
        funext i
        simp
      rw [List.count_cons, count_true_eq_filter_length bs, List.length_cons,
        List.range_succ_eq_map, List.filter_cons, List.filter_map, hcomp]
      cases b <;> simp

/-- C10: iter yields exactly the indices satisfying contains, each
exactly once and in strictly increasing order, and len equals the number
of indices yielded. -/
theorem subtable_indices_iter_spec (s : SubtableIndices) :
    (∀ i, i ∈ s.iter ↔ s.contains i = true) ∧
    List.Pairwise (· < ·) s.iter ∧
    s.iter.Nodup ∧
    s.len = s.iter.length := by
  have hpw : List.Pairwise (· < ·) s.iter :=
    List.Pairwise.sublist (List.filter_sublist _) (List.pairwise_lt_range _)
  refine ⟨?_, hpw, ?_, ?_⟩
  · intro i
    simp only [SubtableIndices.iter, List.mem_filter, List.mem_range,
      SubtableIndices.contains]
    constructor
    · rintro ⟨-, h2⟩
      exact h2
    · intro h2
      refine ⟨?_, h2⟩
      by_contra hn
      rw [List.getD_eq_default _ _ (by omega)] at h2
      exact Bool.false_ne_true h2
  · exact hpw.imp (fun h => Nat.ne_of_lt h)
  · exact count_true_eq_filter_length s.bits

/-- C10 has no hypothesis beyond its universally quantified bit-set, but
a concrete instance is still recorded: the law at the bit pattern
[false, true, true, false, true]. -/
theorem subtable_indices_iter_spec_witness :
    (∀ i, i ∈ SubtableIndices.iter ⟨[false, true, true, false, true]⟩ ↔
      SubtableIndices.contains ⟨[false, true, true, false, true]⟩ i = true) ∧
    List.Pairwise (· < ·)
      (SubtableIndices.iter ⟨[false, true, true, false, true]⟩) ∧
    (SubtableIndices.iter ⟨[false, true, true, false, true]⟩).Nodup ∧
    SubtableIndices.len ⟨[false, true, true, false, true]⟩ =
      (SubtableIndices.iter ⟨[false, true, true, false, true]⟩).length :=
  subtable_indices_iter_spec ⟨[false, true, true, false, true]⟩

/-- A scaled monomial of degree at most 4 has vanishing fifth finite
difference. -/
theorem dd5val_pow_le_four (e : ℕ) (he : e ≤ 4) (c t : ℤ) :
    dd5val (fun u => c * u ^ e) t = 0 := by
  interval_cases e <;> simp only [dd5val] <;> ring

/-- The fifth finite difference distributes over finite sums of
functions. -/
theorem dd5val_sum {α : Type} (s : Finset α) (F : α → ℤ → ℤ) (t : ℤ) :
    dd5val (fun u => ∑ d ∈ s, F d u) t = ∑ d ∈ s, dd5val (F d) t := by
  simp only [dd5val, Finset.mul_sum, Finset.sum_sub_distrib,
    Finset.sum_add_distrib]

/-- Diagonal evaluation of a multivariate polynomial as a sum of scaled
powers, one per support monomial, with exponent the monomial's total
degree. -/
theorem eval_diag (P : MvPolynomial (Fin 16) ℤ) (t : ℤ) :
    MvPolynomial.eval (fun _ => t) P =
      ∑ d ∈ P.support,
        MvPolynomial.coeff d P * t ^ (d.sum fun _ e => e) := by
  rw [MvPolynomial.eval_eq']
  apply Finset.sum_congr rfl
  intro d hd
  congr 1
  rw [Finset.prod_pow_eq_pow_sum]
  congr 1
  rw [Finsupp.sum_fintype]
  intro i
  rfl

/-- A diagonal restriction of a polynomial of total degree at most 4 has
vanishing fifth finite difference. -/
theorem dd5val_eval_diag_eq_zero (P : MvPolynomial (Fin 16) ℤ)
    (hdeg : P.totalDegree ≤ 4) (t : ℤ) :
    dd5val (fun u => MvPolynomial.eval (fun _ => u) P) t = 0 := by
  have hpt : dd5val (fun u => MvPolynomial.eval (fun _ => u) P) t =
      dd5val (fun u => ∑ d ∈ P.support,
        MvPolynomial.coeff d P * u ^ (d.sum fun _ e => e)) t := by
    simp only [dd5val, eval_diag]
  rw [hpt, dd5val_sum]
  apply Finset.sum_eq_zero
  intro d hd
  exact dd5val_pow_le_four _
    (le_trans (MvPolynomial.le_totalDegree hd) hdeg) _ t

/-- The ring-hom image of the combine loop is the combine loop of the
images. -/
theorem combineGo_hom {R S : Type} [CommRing R] [CommRing S] (φ : R →+* S) :
    ∀ (l : List R) (s e : R),
      LTInstruction.combineGo (l.map φ) (φ s) (φ e) =
        φ (LTInstruction.combineGo l s e)
  | [], s, e => by simp [LTInstruction.combineGo]
  | [v], s, e => by simp [LTInstruction.combineGo]
  | v :: w :: rest, s, e => by
      simp only [List.map_cons, LTInstruction.combineGo]
      rw [show φ s + φ v * φ e = φ (s + v * e) by rw [map_add, map_mul],
          show φ e * φ w = φ (e * w) by rw [map_mul]]
      exact combineGo_hom φ rest _ _

/-- combine_lookups on any 16 concrete inputs is the evaluation of
ltCombinePoly at those inputs: the polynomial really is the one
combine_lookups computes. -/
theorem combine_lookups_eval_ltCombinePoly (v : Fin 16 → ℤ) :
    LTInstruction.combine_lookups (List.ofFn v) =
      .ok (MvPolynomial.eval v ltCombinePoly) := by
  rw [LTInstruction.combine_lookups,
    if_pos (by simp [LTInstruction.num_memories])]
  congr 1
  have h := combineGo_hom (MvPolynomial.eval v)
    ((List.finRange 16).map MvPolynomial.X) 0 1
  rw [map_zero, map_one] at h
  rw [ltCombinePoly, ← h, List.map_map]
  congr 1
  rw [show (⇑(MvPolynomial.eval v) ∘ MvPolynomial.X) = v from by
    funext i
    simp]
  exact List.ofFn_eq_map

/-- C3 (code bug): every multivariate polynomial that represents
combine_lookups on its 16 subtable-evaluation inputs has total degree
strictly greater than the declared primary_poly_degree of 4 — the
declared degree is an underestimate, which the spec forbids.  (Along the
diagonal v_i = t the combine value is t + t² + … + t⁸, which no
degree-4 polynomial matches: its fifth finite difference at 0 is 144720,
not 0.) -/
theorem primary_poly_degree_underestimates (P : MvPolynomial (Fin 16) ℤ)
    (hrep : ∀ v : Fin 16 → ℤ,
      LTInstruction.combine_lookups (List.ofFn v) =
        .ok (MvPolynomial.eval v P)) :
    LTVM.primary_poly_degree < P.totalDegree := by
  rw [show LTVM.primary_poly_degree = 4 from rfl]
  by_contra hle
  push_neg at hle
  have hdiag : ∀ t : ℤ, MvPolynomial.eval (fun _ => t) P =
      t + t ^ 2 + t ^ 3 + t ^ 4 + t ^ 5 + t ^ 6 + t ^ 7 + t ^ 8 := by
    intro t
    have h1 := hrep (fun _ => t)
    have h2 : LTInstruction.combine_lookups (List.ofFn (fun _ : Fin 16 => t)) =
        .ok (t + t ^ 2 + t ^ 3 + t ^ 4 + t ^ 5 + t ^ 6 + t ^ 7 + t ^ 8) := by
      rw [LTInstruction.combine_lookups,
        if_pos (by simp [LTInstruction.num_memories])]
      congr 1
      simp only [List.ofFn_succ, List.ofFn_zero, Fin.succ, LTInstruction.combineGo]
      ring
    rw [h1] at h2
    exact Except.ok.inj h2
  have hz := dd5val_eval_diag_eq_zero P hle 0
  have hval : dd5val (fun u => MvPolynomial.eval (fun _ => u) P) 0 =
      dd5val (fun u => u + u ^ 2 + u ^ 3 + u ^ 4 + u ^ 5 + u ^ 6 + u ^ 7
        + u ^ 8) 0 := by
    simp only [dd5val, hdiag]
  rw [hval] at hz
  norm_num [dd5val] at hz

/-- C3 witness: ltCombinePoly is a concrete polynomial representing
combine_lookups, so the declared degree 4 is strictly below its total
degree. -/
theorem primary_poly_degree_underestimates_witness :
    (∀ v : Fin 16 → ℤ,
      LTInstruction.combine_lookups (List.ofFn v) =
        .ok (MvPolynomial.eval v ltCombinePoly)) ∧
    LTVM.primary_poly_degree < ltCombinePoly.totalDegree :=
  ⟨combine_lookups_eval_ltCombinePoly,
   primary_poly_degree_underestimates ltCombinePoly
     combine_lookups_eval_ltCombinePoly⟩

/-- Horner evaluation is additive over coefficientwise addition. -/
theorem peval_padd {F : Type} [CommRing F] (t : F) :
    ∀ (p q : List F), peval t (padd p q) = peval t p + peval t q
  | [], q => by simp [padd, peval]
  | a :: p, [] => by simp [padd, peval]
  | a :: p, b :: q => by
      simp only [padd, peval]
      rw [peval_padd t p q]
      ring

/-- Horner evaluation of the instance-level sum. -/
theorem peval_add {F : Type} [CommRing F] (t : F) (p q : Poly F) :
    peval t (p + q) = peval t p + peval t q :=
  peval_padd t p q

/-- Horner evaluation after scaling every coefficient. -/
theorem peval_map_mul {F : Type} [CommRing F] (t a : F) :
    ∀ (q : List F), peval t (q.map (fun b => a * b)) = a * peval t q
  | [] => by simp [peval]
  | b :: q => by
      simp only [List.map_cons, peval]
      rw [peval_map_mul t a q]
      ring

/-- Horner evaluation is multiplicative over the convolution product. -/
theorem peval_pmul {F : Type} [CommRing F] (t : F) :
    ∀ (p q : List F), peval t (pmul p q) = peval t p * peval t q
  | [], q => by simp [pmul, peval]
  | a :: p, q => by
      simp only [pmul, peval]
      rw [peval_padd, peval_map_mul]
      show a * peval t q + (0 + t * peval t (pmul p q)) = _
      rw [peval_pmul t p q]
      ring

/-- Horner evaluation of the instance-level product. -/
theorem peval_mul {F : Type} [CommRing F] (t : F) (p q : Poly F) :
    peval t (p * q) = peval t p * peval t q :=
  peval_pmul t p q

/-- Horner evaluation of the coefficientwise negation. -/
theorem peval_pneg {F : Type} [CommRing F] (t : F) :
    ∀ (p : List F), peval t (pneg p) = -peval t p
  | [] => by simp [pneg, peval]
  | a :: p => by
      simp only [pneg, List.map_cons, peval]
      rw [show List.map (fun a => -a) p = pneg p from rfl, peval_pneg t p]
      ring

/-- Horner evaluation of the instance-level difference. -/
theorem peval_sub {F : Type} [CommRing F] (t : F) (p q : Poly F) :
    peval t (p - q) = peval t p - peval t q := by
  show peval t (padd p (pneg q)) = _
  rw [peval_padd, peval_pneg]
  ring

/-- Horner evaluation of the zero polynomial. -/
theorem peval_zero {F : Type} [CommRing F] (t : F) :
    peval t (0 : Poly F) = 0 := rfl

/-- Horner evaluation of the one polynomial. -/
theorem peval_one {F : Type} [CommRing F] (t : F) :
    peval t (1 : Poly F) = 1 := by
  show peval t [1] = 1
  simp [peval]

/-- Horner evaluation of a constant. -/
theorem peval_pC {F : Type} [CommRing F] (t a : F) :
    peval t (pC a) = a := by
  simp [peval, pC]

/-- Horner evaluation of the indeterminate. -/
theorem peval_pX {F : Type} [CommRing F] (t : F) :
    peval t (pX : Poly F) = t := by
  simp [peval, pX]

/-- Horner evaluation of a list sum of polynomials. -/
theorem peval_listSum {F : Type} [CommRing F] (t : F) :
    ∀ (l : List (Poly F)), peval t l.sum = (l.map (peval t)).sum
  | [] => by simp [peval_zero]
  | p :: l => by
      simp only [List.sum_cons, List.map_cons, peval_add]
      rw [peval_listSum t l]

/-- Evaluating a polynomial-carrier equality-kernel fold at a point is
the field-level fold of the evaluated inputs. -/
theorem peval_eqMleGo {F : Type} [CommRing F] (t : F) :
    ∀ (a b : List (Poly F)) (acc : Poly F),
      peval t (EQSubtable.eqMleGo a b acc) =
        EQSubtable.eqMleGo (a.map (peval t)) (b.map (peval t)) (peval t acc)
  | [], [], acc => by simp [EQSubtable.eqMleGo]
  | [], y :: ys, acc => by simp [EQSubtable.eqMleGo]
  | x :: xs, [], acc => by simp [EQSubtable.eqMleGo]
  | x :: xs, y :: ys, acc => by
      simp only [List.map_cons, EQSubtable.eqMleGo]
      rw [peval_eqMleGo t xs ys]
      congr 1
      simp only [peval_mul, peval_add, peval_sub, peval_one]

/-- Evaluating a polynomial-carrier multilinear extension at a point is
the field-level extension of the evaluated column at the evaluated
point. -/
theorem peval_mleEval {F : Type} [CommRing F] (t : F) :
    ∀ (xs : List (Poly F)) (vals : List (Poly F)),
      peval t (mleEval vals xs) =
        mleEval (vals.map (peval t)) (xs.map (peval t))
  | [], vals => by
      cases vals <;> simp [mleEval, peval_zero]
  | x :: xs, vals => by
      simp only [mleEval, List.map_cons, peval_add, peval_mul, peval_sub,
        peval_one]
      rw [peval_mleEval t xs (vals.take (2 ^ xs.length)),
          peval_mleEval t xs (vals.drop (2 ^ xs.length)),
          List.map_take, List.map_drop, List.length_map]

/-- Evaluating a polynomial-carrier combine fold at a point is the
field-level fold of the evaluated inputs. -/
theorem peval_combineGo {F : Type} [CommRing F] (t : F) :
    ∀ (l : List (Poly F)) (s e : Poly F),
      peval t (LTInstruction.combineGo l s e) =
        LTInstruction.combineGo (l.map (peval t)) (peval t s) (peval t e)
  | [], s, e => by simp [LTInstruction.combineGo]
  | [v], s, e => by simp [LTInstruction.combineGo]
  | v :: w :: rest, s, e => by
      simp only [List.map_cons, LTInstruction.combineGo]
      rw [peval_combineGo t rest]
      congr 1
      · simp only [peval_add, peval_mul]
      · simp only [peval_mul]

/-- A constant-embedded list evaluates back to itself. -/
theorem map_peval_map_pC {F : Type} [CommRing F] (t : F) (l : List F) :
    (l.map pC).map (peval t) = l := by
  rw [List.map_map]
  have h : (peval t ∘ pC) = (id : F → F) := by
    funext a
    simp [Function.comp, peval_pC]
  rw [h, List.map_id]

/-- Evaluating the polynomial-carrier sumcheck summand at a point gives
the field-level summand at the evaluated coordinates. -/
theorem peval_lassoF {F : Type} [CommRing F] (t : F) (rr : List F)
    (E : List (List F)) (xp : List (Poly F)) :
    peval t (lassoF (rr.map pC) (E.map (fun col => col.map pC)) xp) =
      lassoF rr E (xp.map (peval t)) := by
  simp only [lassoF, peval_mul]
  congr 1
  · rw [eqList, eqList, peval_eqMleGo, map_peval_map_pC, peval_one]
  · rw [peval_combineGo]
    simp only [List.map_map, peval_zero, peval_one]
    congr 1
    apply List.map_congr_left
    intro col hcol
    simp only [Function.comp_apply]
    rw [peval_mleEval, map_peval_map_pC]

/-- The hypercube sum over no coordinates is the value at the empty
point. -/
theorem hypersum_zero {F : Type} [CommRing F] (f : List F → F) :
    hypersum 0 f = f [] := by
  simp [hypersum, hypercube]

/-- Splitting the hypercube sum along the first coordinate. -/
theorem hypersum_succ {F : Type} [CommRing F] (n : ℕ) (f : List F → F) :
    hypersum (n + 1) f =
      hypersum n (fun v => f (0 :: v)) + hypersum n (fun v => f (1 :: v)) := by
  simp only [hypersum, hypercube, List.map_append, List.map_map,
    List.sum_append]
  rfl

/-- The honest round polynomial evaluates, at any point, to the partial
hypercube sum with that point substituted in the free coordinate. -/
theorem sectionPoly_eval {F : Type} [CommRing F] (rr : List F)
    (E : List (List F)) (ρ : List F) (k : ℕ) (t : F) :
    peval t (sectionPoly rr E ρ k) =
      hypersum k (fun b => lassoF rr E (ρ ++ t :: b)) := by
  rw [sectionPoly, peval_listSum, hypersum, List.map_map]
  congr 1
  apply List.map_congr_left
  intro b hb
  simp only [Function.comp_apply]
  rw [peval_lassoF]
  congr 1
  rw [List.map_append, map_peval_map_pC, List.map_cons, peval_pX,
    map_peval_map_pC]

/-- The honest prover emits one round message per round. -/
theorem proveRounds_length {F : Type} [CommRing F] (chal : List F → F)
    (rr : List F) (E : List (List F)) :
    ∀ (k : ℕ) (ρ T : List F),
      (proveRounds chal rr E k ρ T).1.length = k
  | 0, ρ, T => rfl
  | k + 1, ρ, T => by
      simp only [proveRounds, List.length_cons]
      rw [proveRounds_length chal rr E k]

/-- Sumcheck completeness: against the honest round messages, the
verifier's consistency chain accepts, recomputes exactly the prover's
challenges and transcript, and ends holding the sumcheck polynomial's
value at the joint challenge point. -/
theorem rounds_complete {F : Type} [CommRing F] [DecidableEq F]
    (chal : List F → F) (rr : List F) (E : List (List F)) :
    ∀ (k : ℕ) (ρ T : List F) (claim : F),
      claim = hypersum k (fun b => lassoF rr E (ρ ++ b)) →
      verifyRounds chal (proveRounds chal rr E k ρ T).1 claim ρ T =
        .ok (lassoF rr E (proveRounds chal rr E k ρ T).2.1,
             (proveRounds chal rr E k ρ T).2.1,
             (proveRounds chal rr E k ρ T).2.2)
  | 0, ρ, T, claim, hc => by
      simp only [proveRounds, verifyRounds]
      rw [hc, hypersum_zero, List.append_nil]
  | k + 1, ρ, T, claim, hc => by
      have hp0 : peval 0 (sectionPoly rr E ρ k) +
          peval 1 (sectionPoly rr E ρ k) = claim := by
        rw [sectionPoly_eval, sectionPoly_eval, hc, hypersum_succ]
      have hnext : peval (chal (T ++ sectionPoly rr E ρ k))
          (sectionPoly rr E ρ k) =
          hypersum k (fun b => lassoF rr E
            ((ρ ++ [chal (T ++ sectionPoly rr E ρ k)]) ++ b)) := by
        rw [sectionPoly_eval]
        apply congrArg (hypersum k)
        funext b
        rw [List.append_assoc, List.singleton_append]
      simp only [proveRounds, verifyRounds, if_pos hp0]
      exact rounds_complete chal rr E k
        (ρ ++ [chal (T ++ sectionPoly rr E ρ k)])
        (T ++ sectionPoly rr E ρ k) _ hnext

/-- C4: round trip — verifying an honestly produced evaluation proof
against the commitment of the same densified representation, at the same
evaluation point and generators, with an independently constructed
transcript fed the identical public messages, accepts.  The challenges
are recomputed deterministically from the transcript on both sides, so
the verifier's chain retraces the prover's exactly. -/
theorem verify_prove_round_trip {F : Type} [CommRing F] [DecidableEq F]
    (chal : List F → F) (nz : List (List ℕ)) (r : List F)
    (gens : SparsePolyCommitmentGens) (T T2 tape : List F)
    (hr : r.length = Nat.clog 2 nz.length) (hT : T2 = T) :
    verify (prove (from_lookup_indices nz 16) r gens T tape chal)
      ((from_lookup_indices nz 16).commit gens) r gens T2 chal = .ok () := by
  subst hT
  have hclaim : hypersum r.length
      (lassoF r (EcolsOf F (from_lookup_indices nz 16).dim)) =
      hypersum r.length (fun b =>
        lassoF r (EcolsOf F (from_lookup_indices nz 16).dim) ([] ++ b)) := by
    apply congrArg
    funext b
    rw [List.nil_append]
  simp only [prove, verify, DensifiedRepresentation.commit]
  rw [rounds_complete chal r (EcolsOf F (from_lookup_indices nz 16).dim)
    r.length [] _ _ hclaim]
  dsimp only
  rw [if_pos]
  refine ⟨?_, rfl, rfl⟩
  exact proveRounds_length chal r _ r.length [] _

/-- C4 witness: the round trip instantiated over the integers at a
four-row batch, evaluation point of length log2(S_padded) = 2, shared
generators, and two transcripts constructed from the same public
messages. -/
theorem verify_prove_round_trip_witness :
    (([3, 5] : List ℤ).length = Nat.clog 2 nzExample.length ∧
      ([11, 22] : List ℤ) = [11, 22]) ∧
    verify (prove (from_lookup_indices nzExample 16) [3, 5] gensExample
        [11, 22] [] chalExample)
      ((from_lookup_indices nzExample 16).commit gensExample) [3, 5]
      gensExample [11, 22] chalExample = .ok () := by
  have hlen : Nat.clog 2 nzExample.length = 2 := by
    rw [show nzExample.length = 2 ^ 2 from rfl]
    exact Nat.clog_pow 2 2 one_lt_two
  refine ⟨⟨?_, rfl⟩, ?_⟩
  · rw [hlen]
    rfl
  · exact verify_prove_round_trip chalExample nzExample [3, 5] gensExample
      [11, 22] [11, 22] [] (by rw [hlen]; rfl) rfl

end JoltModel
